import Mathlib

/-!
Shallow embedding of the NAT (non-autoregressive transformer) decoding core of
src/fairseq/models/nat/nonautoregressive_transformer.py.

Tensors of token ids are embedded as lists of naturals (one list per batch row);
score tensors as lists of rationals (floating-point arithmetic is modelled by
exact rational arithmetic).  The learned neural components (the decoder network,
the length classifier logits) are oracles: their outputs appear as explicit
inputs of the embedded functions, exactly at the point where the source reads
them.
-/

namespace NATDePA

/-- Special token ids read from the fairseq dictionary
(self.bos, self.pad, self.eos, self.unk in the source). -/
structure Vocab where
  bos : ℕ
  pad : ℕ
  eos : ℕ
  unk : ℕ

/-- Default fairseq dictionary ids: bos=0, pad=1, eos=2, unk=3. -/
def fairseqVocab : Vocab := ⟨0, 1, 2, 3⟩

/-- Embedding of fairseq.iterative_refinement_generator.DecoderOut, restricted to
the fields the decoding operations of this file touch (attn and history are
dropped: forward_decoder returns attn=None and only appends copies to history). -/
structure DecoderOut where
  output_tokens : List (List ℕ)
  output_scores : List (List ℚ)
  step : ℕ
  max_step : ℕ

/-! ### Uniform position mapper (_uniform_assignment, lines 37-44)

`steps = (src_lens - 1) / (trg_lens - 1)`; `index_t = round(steps * j)`.
The float arithmetic is modelled exactly over rationals; torch.round rounds
half to even, which `rheCore` implements on the fraction n / d given by
quotient `q = n / d` and remainder `r = n % d`. -/

/-- Round half to even of the fraction with quotient q, remainder r, denominator d. -/
def rheCore (q r d : ℕ) : ℕ :=
  if 2 * r < d then q
  else if d < 2 * r then q + 1
  else if q % 2 = 0 then q
  else q + 1

/-- Round half to even of n / d (torch.round applied to the exact rational n / d). -/
def roundHalfEvenDiv (n d : ℕ) : ℕ := rheCore (n / d) (n % d) d

/-- Embedding of _uniform_assignment (lines 37-44) for one batch row: the source
index assigned to target position j is round(j * (src_len - 1) / (trg_len - 1)),
with round half to even as in torch.round. -/
def uniform_assignment (src_len trg_len j : ℕ) : ℕ :=
  roundHalfEvenDiv (j * (src_len - 1)) (trg_len - 1)

/-! ### Length predictor (forward_length_prediction, lines 657-690) -/

/-- Index of the first maximum of a list of logits (torch max(-1) index along
the class axis); 0 on the empty list. -/
def argmaxIdx : List ℚ → ℕ
  | [] => 0
  | [_] => 0
  | x :: y :: xs =>
    let r := argmaxIdx (y :: xs)
    if x < (y :: xs).getD r x then r + 1 else 0

/-- Source lengths used by the offset branch (lines 664-670): when the encoder
padding mask is absent every row defaults to T, the full sequence-length axis
size (enc_feats.size(0)); otherwise each row counts its non-pad (mask = false)
positions. B is the batch size (enc_feats.size(1)). -/
def srcLens (T B : ℕ) (src_masks : Option (List (List Bool))) : List ℕ :=
  match src_masks with
  | none => List.replicate B T
  | some m => m.map (fun row => (row.filter (fun b => !b)).length)

/-- Training-branch encoding of one row's length target (lines 672-679):
offset mode uses tgt_leng - src_leng + 128, absolute mode the raw count;
both are clamped into the interval from 0 to 255. -/
def encodeLengthTgt (offset : Bool) (tgt_leng src_leng : ℤ) : ℤ :=
  max 0 (min 255 (if offset then tgt_leng - src_leng + 128 else tgt_leng))

/-- Inference-branch decoding of one row's predicted class (lines 681-688):
offset mode converts back with pred - 128 + src_leng, absolute mode keeps the
raw arg-max class; no clamping is applied in this branch. -/
def decodeLengthTgt (offset : Bool) (pred src_leng : ℤ) : ℤ :=
  if offset then pred - 128 + src_leng else pred

/-- Embedding of NATransformerDecoder.forward_length_prediction (lines 657-690).
T is enc_feats.size(0), B is enc_feats.size(1); length_out holds the per-row
length logits; tgt_tokens (when present) selects the training branch. -/
def forward_length_prediction (pred_length_offset : Bool) (padding_idx : ℕ)
    (T B : ℕ) (src_masks : Option (List (List Bool)))
    (length_out : List (List ℚ)) (tgt_tokens : Option (List (List ℕ))) : List ℤ :=
  let sl : List ℤ := (srcLens T B src_masks).map Int.ofNat
  match tgt_tokens with
  | some tgt =>
    let tgt_lengs : List ℤ :=
      tgt.map (fun row => ((row.filter (fun t => decide (t ≠ padding_idx))).length : ℤ))
    if pred_length_offset then
      List.zipWith (fun lt ls => encodeLengthTgt true lt ls) tgt_lengs sl
    else
      tgt_lengs.map (fun lt => encodeLengthTgt false lt 0)
  | none =>
    let pred : List ℤ := length_out.map (fun row => (argmaxIdx row : ℤ))
    if pred_length_offset then
      List.zipWith (fun p ls => decodeLengthTgt true p ls) pred sl
    else
      pred.map (fun p => decodeLengthTgt false p 0)

/-! ### Buffer construction (initialize_output_tokens, lines 161-191) -/

/-- One row of the initial token buffer of width W for (already clamped) live
length lt.  The source fills the row with pad, overwrites positions with index
below lt with unk (masked_fill on idx_length < length_tgt), then writes bos at
position 0, then scatters eos at position lt - 1; last write wins, hence the
condition order below is the reverse of the write order. -/
def initRow (v : Vocab) (lt W : ℕ) : List ℕ :=
  (List.range W).map (fun j =>
    if j = lt - 1 then v.eos
    else if j = 0 then v.bos
    else if j < lt then v.unk
    else v.pad)

/-- Maximum of a list of naturals (tensor .max() over the batch axis). -/
def listMax (l : List ℕ) : ℕ := l.foldr max 0

/-- Embedding of NATransformerModel.initialize_output_tokens (lines 161-191),
starting from the already predicted per-row length targets length_tgt (the
output of forward_length_prediction, hence integers that may still be
negative).  Each row's length is clamped to at least 2 in place, the buffer
width is the batch maximum of the clamped lengths, scores are zero-filled and
the returned state has step 0 and max_step 0. -/
def initialize_output_tokens (v : Vocab) (length_tgt : List ℤ) : DecoderOut :=
  let clamped : List ℕ := length_tgt.map (fun x => (max x 2).toNat)
  let W := listMax clamped
  { output_tokens := clamped.map (fun lt => initRow v lt W)
  , output_scores := clamped.map (fun _ => List.replicate W (0 : ℚ))
  , step := 0
  , max_step := 0 }

/-! ### Length-beam expansion (regenerate_length_beam, lines 193-220) -/

/-- Non-pad token count of one row (output_tokens.ne(pad).sum(1)). -/
def nonPadCount (pad : ℕ) (row : List ℕ) : ℕ :=
  (row.filter (fun t => decide (t ≠ pad))).length

/-- Candidate length number i of a beam of size B around center c:
c + i - B // 2 (integer arithmetic, beam_size // 2 is floor division), clamped
to at least 2 (clamp_ with min=2 after flattening). -/
def candLen (B c i : ℕ) : ℕ := (max ((c : ℤ) + i - (B / 2 : ℕ)) 2).toNat

/-- Flattened per-row candidate length list of regenerate_length_beam
(lines 195-201): row r contributes the B consecutive candidates
candLen B c_r 0, ..., candLen B c_r (B-1) where c_r is row r's non-pad count;
view(-1) lays the per-row blocks out contiguously. -/
def beamLengthTgt (pad : ℕ) (tokens : List (List ℕ)) (B : ℕ) : List ℕ :=
  ((tokens.map (nonPadCount pad)).map
    (fun c => (List.range B).map (fun i => candLen B c i))).flatten

/-- Embedding of NATransformerModel.regenerate_length_beam (lines 193-220):
one fresh pad/unk/bos/eos buffer per (original row, candidate length) pair,
zero scores, and the remaining state fields kept by _replace. -/
def regenerate_length_beam (v : Vocab) (d : DecoderOut) (B : ℕ) : DecoderOut :=
  let length_tgt := beamLengthTgt v.pad d.output_tokens B
  let W := listMax length_tgt
  { output_tokens := length_tgt.map (fun lt => initRow v lt W)
  , output_scores := length_tgt.map (fun _ => List.replicate W (0 : ℚ))
  , step := d.step
  , max_step := d.max_step }

/-! ### Refinement step (forward_decoder, lines 129-159)

The decoder network's per-position arg-max over the vocabulary is the oracle
input: pt (predicted tokens, _tokens in the source) and ps (predicted scores,
_scores).  masked_scatter_ with mask output_tokens.ne(pad) writes the predicted
value at every position whose current token is non-pad and keeps the current
value elsewhere. -/

/-- Row-wise masked scatter of predicted tokens over the mask cur ≠ pad. -/
def scatterTokensRow (pad : ℕ) (cur new : List ℕ) : List ℕ :=
  List.zipWith (fun c x => if c ≠ pad then x else c) cur new

/-- Row-wise masked scatter of predicted scores over the mask curTok ≠ pad. -/
def scatterScoresRow (pad : ℕ) (curTok : List ℕ) (curSc new : List ℚ) : List ℚ :=
  List.zipWith (fun (p : ℕ × ℚ) x => if p.1 ≠ pad then x else p.2)
    (curTok.zip curSc) new

/-- Embedding of NATransformerModel.forward_decoder (lines 129-159): the
masked-scatter update of output_tokens and output_scores.  The _replace call
of the source only replaces output_tokens, output_scores, attn and history, so
step and max_step are returned unchanged. -/
def forward_decoder (pad : ℕ) (d : DecoderOut)
    (pt : List (List ℕ)) (ps : List (List ℚ)) : DecoderOut :=
  { output_tokens := List.zipWith (scatterTokensRow pad) d.output_tokens pt
  , output_scores :=
      List.zipWith (fun (p : List ℕ × List ℚ) new => scatterScoresRow pad p.1 p.2 new)
        (d.output_tokens.zip d.output_scores) ps
  , step := d.step
  , max_step := d.max_step }

/-- Iterated refinement: fold forward_decoder over a list of per-step decoder
predictions (one (tokens, scores) oracle pair per refinement step). -/
def forward_decoder_steps (pad : ℕ) (d : DecoderOut)
    (preds : List (List (List ℕ) × List (List ℚ))) : DecoderOut :=
  preds.foldl (fun s p => forward_decoder pad s p.1 p.2) d

/-! ### Copy-attention seeding selection (extract_features, lines 555-563)

The interleave-then-select: cat([mask_target_x.unsqueeze(2), x.unsqueeze(2)],
dim=2).view(-1, C) places the plain embedding of flattened position i at row
2*i and the copy-attention result at row 2*i+1; index_select with index
arange(bsz*seq_len)*2 + output_mask then picks row 2*i + 1 exactly when the
position's token equals unk.  Content vectors are abstract elements of α;
the flattened (bsz*seq_len) axis is one list. -/

/-- Interleaved concatenation: element 2*i is plain's element i, element 2*i+1
is copied's element i (the view(-1, C) of the dim-2 concatenation). -/
def catInterleave (plain copied : List α) : List α :=
  ((plain.zip copied).map (fun p => [p.1, p.2])).flatten

/-- Embedding of the seeding selection of extract_features (lines 555-563):
position i of the result is row 2*i + output_mask(i) of the interleaved
concatenation, where output_mask(i) is 1 exactly when tokens(i) = unk. -/
def copySeedSelect [Inhabited α] (unk : ℕ) (tokens : List ℕ)
    (plain copied : List α) : List α :=
  let cat := catInterleave plain copied
  (List.range tokens.length).map (fun i =>
    cat.getD (2 * i + (if tokens.getD i 0 = unk then 1 else 0)) default)

/-! ### Parity self-attention masks of the split sub-stack
(NATransformerSubOddEvenDecoder.extract_features, lines 1294-1312)

Mask entries are booleans: true stands for the -inf entry written by
masked_fill, false for the 0 entry. -/

/-- Mode-1 mask (lines 1296-1304): input_mask[q][k] = k % 2 (arange % 2
repeated along the query axis), and -inf is written where input_mask = 0,
i.e. at every even-indexed key column, for every query row. -/
def parityMaskMode1 (n : ℕ) : List (List Bool) :=
  (List.range n).map (fun _q => (List.range n).map (fun k => decide (k % 2 = 0)))

/-- Mode-2 mask (lines 1305-1310): input_mask = ones with the odd-row, odd-
column submatrix (index slices 1::2, 1::2) zeroed, and -inf is written where
input_mask = 0, i.e. exactly at pairs of an odd query row and an odd key
column. -/
def parityMaskMode2 (n : ℕ) : List (List Bool) :=
  (List.range n).map (fun q =>
    (List.range n).map (fun k => decide (q % 2 = 1 ∧ k % 2 = 1)))

/-- Embedding of the self_attn_mask selection of the other_layers loop
(lines 1294-1312).  Line 1295 of the source assigns self.attn_mask_mode = None
unconditionally before the branch, so the branch always falls through to
self_attn_mask = None regardless of the configured mode. -/
def otherStackSelfAttnMask (attn_mask_mode : Option ℕ) (n : ℕ) :
    Option (List (List Bool)) :=
  let overridden : Option ℕ := none
  match overridden with
  | some 1 => some (parityMaskMode1 n)
  | some 2 => some (parityMaskMode2 n)
  | _ => none

/-! ### Generic list helper lemmas -/

theorem getD_map_range {α : Type _} (f : ℕ → α) (d : α) {n i : ℕ} (h : i < n) :
    ((List.range n).map f).getD i d = f i := by
  have hl : i < ((List.range n).map f).length := by simpa using h
  rw [List.getD_eq_getElem _ _ hl, List.getElem_map, List.getElem_range]

theorem getD_replicate_self {α : Type _} (a : α) : ∀ (n j : ℕ),
    (List.replicate n a).getD j a = a := by
  intro n
  induction n with
  | zero => intro j; simp
  | succ m ih =>
    intro j
    cases j with
    | zero => simp [List.replicate_succ]
    | succ j => simp [List.replicate_succ, ih j]

theorem le_listMax_of_mem : ∀ {l : List ℕ} {a : ℕ}, a ∈ l → a ≤ listMax l := by
  intro l
  induction l with
  | nil => intro a h; cases h
  | cons b bs ih =>
    intro a h
    rcases List.mem_cons.mp h with h | h
    · subst h; exact le_max_left _ _
    · exact le_trans (ih h) (le_max_right _ _)

theorem zipWith_replicate_right {α β γ : Type _} (f : α → β → γ) (c : β) :
    ∀ (l : List α), List.zipWith f l (List.replicate l.length c) = l.map (fun a => f a c) := by
  intro l
  induction l with
  | nil => simp
  | cons a as ih => simp [List.replicate_succ, ih]

theorem zipWith_getD_of_lt {α β γ : Type _} (f : α → β → γ) (dA : α) (dB : β) (dC : γ) :
    ∀ (as : List α) (bs : List β) (r : ℕ), r < as.length → r < bs.length →
      (List.zipWith f as bs).getD r dC = f (as.getD r dA) (bs.getD r dB) := by
  intro as
  induction as with
  | nil => intro bs r h; simp at h
  | cons a as ih =>
    intro bs r h1 h2
    cases bs with
    | nil => simp at h2
    | cons b bs =>
      cases r with
      | zero => simp
      | succ r =>
        simp only [List.zipWith_cons_cons, List.getD_cons_succ]
        exact ih bs r (by simpa using h1) (by simpa using h2)

theorem zip_getD_of_lt {α β : Type _} (dA : α) (dB : β) :
    ∀ (as : List α) (bs : List β) (r : ℕ), r < as.length → r < bs.length →
      (as.zip bs).getD r (dA, dB) = (as.getD r dA, bs.getD r dB) := by
  intro as
  induction as with
  | nil => intro bs r h; simp at h
  | cons a as ih =>
    intro bs r h1 h2
    cases bs with
    | nil => simp at h2
    | cons b bs =>
      cases r with
      | zero => simp
      | succ r =>
        simp only [List.zip_cons_cons, List.getD_cons_succ]
        exact ih bs r (by simpa using h1) (by simpa using h2)

theorem flatten_length_const {α : Type _} (B : ℕ) :
    ∀ (ls : List (List α)), (∀ l ∈ ls, l.length = B) →
      ls.flatten.length = ls.length * B := by
  intro ls
  induction ls with
  | nil => intro _; simp
  | cons l rest ih =>
    intro h
    have hl : l.length = B := h l (List.mem_cons_self _ _)
    have hrest := ih (fun x hx => h x (List.mem_cons_of_mem _ hx))
    simp [List.length_append, hl, hrest, Nat.succ_mul, Nat.add_comm]

theorem flatten_getD_const_len {α : Type _} (B : ℕ) (d : α) :
    ∀ (ls : List (List α)) (r i : ℕ), (∀ l ∈ ls, l.length = B) →
      r < ls.length → i < B →
      ls.flatten.getD (r * B + i) d = (ls.getD r []).getD i d := by
  intro ls
  induction ls with
  | nil => intro r i _ hr; simp at hr
  | cons l rest ih =>
    intro r i hlen hr hi
    have hl : l.length = B := hlen l (List.mem_cons_self _ _)
    cases r with
    | zero =>
      have hi2 : i < l.length := by omega
      simpa using List.getD_append l rest.flatten d i hi2
    | succ r =>
      have harith : (r + 1) * B + i = l.length + (r * B + i) := by
        rw [hl]; ring
      rw [List.flatten_cons, harith,
        List.getD_append_right l rest.flatten d _ (Nat.le_add_right _ _)]
      simp only [Nat.add_sub_cancel_left, List.getD_cons_succ]
      exact ih r i (fun x hx => hlen x (List.mem_cons_of_mem _ hx)) (by simpa using hr) hi

theorem filter_range_lt_length : ∀ (W lt : ℕ), lt ≤ W →
    ((List.range W).filter (fun j => decide (j < lt))).length = lt := by
  intro W
  induction W with
  | zero => intro lt h; simp; omega
  | succ W ih =>
    intro lt h
    rw [List.range_succ, List.filter_append, List.length_append]
    rcases Nat.lt_or_ge lt (W + 1) with hlt | hge
    · have h1 := ih lt (by omega)
      have h2 : ((List.filter (fun j => decide (j < lt)) [W])).length = 0 := by
        have hWlt : ¬ (W < lt) := by omega
        simp [List.filter_cons, hWlt]
      omega
    · have hlt : lt = W + 1 := by omega
      subst hlt
      have h1 := ih W (le_refl W)
      have h1' : (List.filter (fun j => decide (j < W + 1)) (List.range W)).length = W := by
        rw [List.filter_congr (q := fun j => decide (j < W))]
        · exact h1
        · intro x hx
          have := List.mem_range.mp hx
          simp [decide_eq_true_eq]; omega
      have h2 : ((List.filter (fun j => decide (j < W + 1)) [W])).length = 1 := by
        simp
      omega

theorem catInterleave_getD_even {α : Type _} (d : α) :
    ∀ (p c : List α) (i : ℕ), i < p.length → i < c.length →
      (catInterleave p c).getD (2 * i) d = p.getD i d := by
  intro p
  induction p with
  | nil => intro c i h; simp at h
  | cons a ps ih =>
    intro c i h1 h2
    cases c with
    | nil => simp at h2
    | cons b cs =>
      cases i with
      | zero => simp [catInterleave]
      | succ j =>
        have harith : 2 * (j + 1) = (2 * j) + 1 + 1 := by ring
        rw [harith]
        simpa [catInterleave] using ih cs j (by simpa using h1) (by simpa using h2)

theorem catInterleave_getD_odd {α : Type _} (d : α) :
    ∀ (p c : List α) (i : ℕ), i < p.length → i < c.length →
      (catInterleave p c).getD (2 * i + 1) d = c.getD i d := by
  intro p
  induction p with
  | nil => intro c i h; simp at h
  | cons a ps ih =>
    intro c i h1 h2
    cases c with
    | nil => simp at h2
    | cons b cs =>
      cases i with
      | zero => simp [catInterleave]
      | succ j =>
        have harith : 2 * (j + 1) + 1 = ((2 * j) + 1) + 1 + 1 := by ring
        rw [harith]
        simpa [catInterleave] using ih cs j (by simpa using h1) (by simpa using h2)

/-! ### Rounding lemmas -/

theorem rheCore_le (q r d : ℕ) : rheCore q r d ≤ q + 1 := by
  unfold rheCore; split_ifs <;> omega

theorem rheCore_ge (q r d : ℕ) : q ≤ rheCore q r d := by
  unfold rheCore; split_ifs <;> omega

theorem rheCore_r_mono (q d : ℕ) {r1 r2 : ℕ} (h : r1 ≤ r2) :
    rheCore q r1 d ≤ rheCore q r2 d := by
  unfold rheCore; split_ifs <;> omega

theorem roundHalfEvenDiv_mono (d : ℕ) {n1 n2 : ℕ} (h : n1 ≤ n2) :
    roundHalfEvenDiv n1 d ≤ roundHalfEvenDiv n2 d := by
  unfold roundHalfEvenDiv
  have hq : n1 / d ≤ n2 / d := Nat.div_le_div_right h
  rcases Nat.lt_or_ge (n1 / d) (n2 / d) with hlt | hge
  · calc rheCore (n1 / d) (n1 % d) d ≤ n1 / d + 1 := rheCore_le _ _ _
      _ ≤ n2 / d := hlt
      _ ≤ rheCore (n2 / d) (n2 % d) d := rheCore_ge _ _ _
  · have heq : n1 / d = n2 / d := le_antisymm hq hge
    have hr : n1 % d ≤ n2 % d := by
      have h1 := Nat.div_add_mod n1 d
      have h2 := Nat.div_add_mod n2 d
      rw [heq] at h1
      generalize d * (n2 / d) = k at h1 h2
      omega
    rw [heq]
    exact rheCore_r_mono _ _ hr

theorem roundHalfEvenDiv_mul (q d : ℕ) (hd : 0 < d) :
    roundHalfEvenDiv (q * d) d = q := by
  unfold roundHalfEvenDiv
  rw [Nat.mul_div_cancel _ hd, Nat.mul_mod_left]
  unfold rheCore
  split_ifs <;> omega

theorem roundHalfEvenDiv_zero (d : ℕ) : roundHalfEvenDiv 0 d = 0 := by
  unfold roundHalfEvenDiv rheCore
  rw [Nat.zero_div, Nat.zero_mod]
  split_ifs <;> omega

/-- Claim C5: for every fixed source length Ls at least 1 and target length Lt
at least 2, the uniform position mapper assigns target position j (for j below
Lt) the source index round(j * (Ls-1)/(Lt-1)), which already lies in the range
from 0 to Ls-1 (so the clamp of the claim is the identity there); the mapped
indices are non-decreasing in j, the index of position 0 is 0 and the index of
position Lt-1 is Ls-1, deterministically as a function of (Ls, Lt) only. -/
theorem uniform_assignment_spec (Ls Lt : ℕ) (hLs : 1 ≤ Ls) (hLt : 2 ≤ Lt) :
    (∀ j1 j2, j1 ≤ j2 → uniform_assignment Ls Lt j1 ≤ uniform_assignment Ls Lt j2)
    ∧ (∀ j, j < Lt → uniform_assignment Ls Lt j ≤ Ls - 1)
    ∧ uniform_assignment Ls Lt 0 = 0
    ∧ uniform_assignment Ls Lt (Lt - 1) = Ls - 1 := by
  have hd : 0 < Lt - 1 := by omega
  have hmono : ∀ j1 j2, j1 ≤ j2 →
      uniform_assignment Ls Lt j1 ≤ uniform_assignment Ls Lt j2 := by
    intro j1 j2 h
    exact roundHalfEvenDiv_mono (Lt - 1) (Nat.mul_le_mul_right _ h)
  have hend : uniform_assignment Ls Lt (Lt - 1) = Ls - 1 := by
    unfold uniform_assignment
    rw [Nat.mul_comm]
    exact roundHalfEvenDiv_mul (Ls - 1) (Lt - 1) hd
  refine ⟨hmono, ?_, ?_, hend⟩
  · intro j hj
    have h1 : uniform_assignment Ls Lt j ≤ uniform_assignment Ls Lt (Lt - 1) :=
      hmono j (Lt - 1) (by omega)
    omega
  · unfold uniform_assignment
    rw [Nat.zero_mul]
    exact roundHalfEvenDiv_zero _

/-- Witness for C5 at Ls = 3, Lt = 4. -/
theorem uniform_assignment_spec_witness :
    1 ≤ 3 ∧ 2 ≤ 4 ∧
    ((∀ j1 j2, j1 ≤ j2 → uniform_assignment 3 4 j1 ≤ uniform_assignment 3 4 j2)
      ∧ (∀ j, j < 4 → uniform_assignment 3 4 j ≤ 3 - 1)
      ∧ uniform_assignment 3 4 0 = 0
      ∧ uniform_assignment 3 4 (4 - 1) = 3 - 1) :=
  ⟨by decide, by decide, uniform_assignment_spec 3 4 (by decide) (by decide)⟩

/-- Claim C2: encoding a target length in offset mode (the training branch) and
decoding the offset back (the inference branch) are mutually inverse whenever
the unclamped offset Lt - Ls + 128 lies between 0 and 255. -/
theorem length_roundtrip (Ls Lt : ℤ) (hLs : 1 ≤ Ls) (hLt : 2 ≤ Lt)
    (h0 : 0 ≤ Lt - Ls + 128) (h255 : Lt - Ls + 128 ≤ 255) :
    decodeLengthTgt true (encodeLengthTgt true Lt Ls) Ls = Lt := by
  simp only [decodeLengthTgt, encodeLengthTgt, if_pos]
  omega

/-- Witness for C2 at Ls = 3, Lt = 5. -/
theorem length_roundtrip_witness :
    (1 : ℤ) ≤ 3 ∧ (2 : ℤ) ≤ 5 ∧ (0 : ℤ) ≤ 5 - 3 + 128 ∧ (5 : ℤ) - 3 + 128 ≤ 255 ∧
    decodeLengthTgt true (encodeLengthTgt true 5 3) 3 = 5 :=
  ⟨by decide, by decide, by decide, by decide,
    length_roundtrip 3 5 (by decide) (by decide) (by decide) (by decide)⟩

/-- Claim C8: at inference (tgt_tokens absent) in offset mode,
forward_length_prediction returns per row the arg-max class of the length
distribution minus 128 plus the source length, with no clamping applied; and
when the encoder padding mask is absent the source lengths silently default to
T, the full sequence-length axis size, for every batch row. -/
theorem forward_length_prediction_inference (p T B : ℕ) (length_out : List (List ℚ))
    (hB : B = length_out.length) :
    forward_length_prediction true p T B none length_out none
      = length_out.map (fun row => (argmaxIdx row : ℤ) - 128 + T)
    ∧ srcLens T B none = List.replicate B T := by
  constructor
  · subst hB
    show List.zipWith (fun p ls => decodeLengthTgt true p ls)
        (length_out.map (fun row => (argmaxIdx row : ℤ)))
        ((List.replicate length_out.length T).map Int.ofNat) = _
    rw [List.map_replicate]
    have hlen : (length_out.map (fun row => (argmaxIdx row : ℤ))).length
        = length_out.length := by simp
    rw [← hlen, zipWith_replicate_right, List.map_map]
    simp [decodeLengthTgt, Function.comp]
  · rfl

/-- Witness for C8: one batch row with logits putting the arg-max at class 1,
sequence axis T = 4; the unclamped result is 1 - 128 + 4 = -123. -/
theorem forward_length_prediction_inference_witness :
    1 = ([[(0 : ℚ), 5, 1]] : List (List ℚ)).length ∧
    (forward_length_prediction true 1 4 1 none [[(0 : ℚ), 5, 1]] none
      = ([[(0 : ℚ), 5, 1]] : List (List ℚ)).map
          (fun row => (argmaxIdx row : ℤ) - 128 + 4)
    ∧ srcLens 4 1 none = List.replicate 1 4) :=
  ⟨by decide, forward_length_prediction_inference 1 4 1 [[(0 : ℚ), 5, 1]] (by decide)⟩

/-- Counterexample to claim C7 as stated: forward_decoder does not increment
the step field.  On a state with step 4 the returned state still has step 4,
not 4 + 1: the _replace call of the source replaces only output_tokens,
output_scores, attn and history. -/
theorem forward_decoder_step_counterexample :
    (forward_decoder 1 ⟨[[0, 2]], [[0, 0]], 4, 6⟩ [[5, 5]] [[2, 2]]).step = 4
    ∧ (4 : ℕ) ≠ 4 + 1 :=
  ⟨rfl, by decide⟩

/-- Claim C7 as amended: for every DecodingState passed to forward_decoder, the
returned state carries the step field unchanged (the step counter is advanced
by the external iterative-refinement driver, not by forward_decoder). -/
theorem forward_decoder_step_unchanged (pad : ℕ) (d : DecoderOut)
    (pt : List (List ℕ)) (ps : List (List ℚ)) :
    (forward_decoder pad d pt ps).step = d.step := rfl

/-- Counterexample to claim C9 as stated: with the configured mode 1 and
sequence length 2, no self-attention mask at all is applied in the second
sub-stack (extract_features overwrites attn_mask_mode with None before the
branch), so the disallowed pair of query 0 and even key 0 does not receive
-inf; moreover the mode-2 mask matrix itself does not assign -inf to the pair
of even query 0 and even key 0, although under the claim an even query may
attend only odd keys in mode 2. -/
theorem parity_mask_counterexample :
    otherStackSelfAttnMask (some 1) 2 = none
    ∧ ((parityMaskMode2 2).getD 0 []).getD 0 true = false :=
  ⟨rfl, by decide⟩

/-- Claim C9 as amended: the parity branches are dead code: for every
configured mode and sequence length the second sub-stack runs with no
self-attention mask, because extract_features unconditionally resets
attn_mask_mode to None before the branch; the mode-1 matrix, taken on its own,
assigns -inf exactly at even-indexed key columns for every query (all queries
restricted to odd keys), and the mode-2 matrix assigns -inf exactly at pairs
of an odd-indexed query and an odd-indexed key (odd queries restricted to even
keys, even queries unrestricted). -/
theorem parity_mask_spec (mode : Option ℕ) (n q k : ℕ) (hq : q < n) (hk : k < n) :
    otherStackSelfAttnMask mode n = none
    ∧ ((parityMaskMode1 n).getD q []).getD k false = decide (k % 2 = 0)
    ∧ ((parityMaskMode2 n).getD q []).getD k false = decide (q % 2 = 1 ∧ k % 2 = 1) := by
  refine ⟨rfl, ?_, ?_⟩
  · unfold parityMaskMode1
    rw [getD_map_range _ _ hq, getD_map_range _ _ hk]
  · unfold parityMaskMode2
    rw [getD_map_range _ _ hq, getD_map_range _ _ hk]

/-- Witness for amended C9 at mode 2, n = 4, q = 1, k = 3. -/
theorem parity_mask_spec_witness :
    1 < 4 ∧ 3 < 4 ∧
    (otherStackSelfAttnMask (some 2) 4 = none
      ∧ ((parityMaskMode1 4).getD 1 []).getD 3 false = decide (3 % 2 = 0)
      ∧ ((parityMaskMode2 4).getD 1 []).getD 3 false
          = decide (1 % 2 = 1 ∧ 3 % 2 = 1)) :=
  ⟨by decide, by decide, parity_mask_spec (some 2) 4 1 3 (by decide) (by decide)⟩

/-! ### Masked-scatter lemmas -/

theorem scatterTokensRow_getD_pad (pad : ℕ) :
    ∀ (cur new : List ℕ) (j : ℕ), cur.getD j pad = pad →
      (scatterTokensRow pad cur new).getD j pad = pad := by
  intro cur
  induction cur with
  | nil => intro new j _; simp [scatterTokensRow]
  | cons c cs ih =>
    intro new j h
    cases new with
    | nil => simp [scatterTokensRow]
    | cons x xs =>
      cases j with
      | zero =>
        simp only [List.getD_cons_zero] at h
        simp [scatterTokensRow, h]
      | succ j =>
        simp only [List.getD_cons_succ] at h
        simpa [scatterTokensRow] using ih xs j h

theorem scatter_rows_getD_pad (pad : ℕ) :
    ∀ (ts pt : List (List ℕ)) (r j : ℕ), (ts.getD r []).getD j pad = pad →
      ((List.zipWith (scatterTokensRow pad) ts pt).getD r []).getD j pad = pad := by
  intro ts
  induction ts with
  | nil => intro pt r j _; simp
  | cons t ts ih =>
    intro pt r j h
    cases pt with
    | nil => simp
    | cons p ps =>
      cases r with
      | zero =>
        simp only [List.getD_cons_zero] at h
        simpa using scatterTokensRow_getD_pad pad t p j h
      | succ r =>
        simp only [List.getD_cons_succ] at h
        simpa using ih ps r j h

theorem forward_decoder_steps_getD_pad (pad : ℕ) (preds : List (List (List ℕ) × List (List ℚ))) :
    ∀ (d : DecoderOut) (r j : ℕ), (d.output_tokens.getD r []).getD j pad = pad →
      ((forward_decoder_steps pad d preds).output_tokens.getD r []).getD j pad = pad := by
  induction preds with
  | nil => intro d r j h; exact h
  | cons p ps ih =>
    intro d r j h
    exact ih (forward_decoder pad d p.1 p.2) r j (scatter_rows_getD_pad pad _ p.1 r j h)

theorem scatterTokensRow_getD_eq (pad : ℕ) :
    ∀ (cur new : List ℕ) (j : ℕ), j < cur.length → j < new.length →
      (scatterTokensRow pad cur new).getD j pad
        = if cur.getD j pad ≠ pad then new.getD j 0 else pad := by
  intro cur
  induction cur with
  | nil => intro new j h; simp at h
  | cons c cs ih =>
    intro new j h1 h2
    cases new with
    | nil => simp at h2
    | cons x xs =>
      cases j with
      | zero => by_cases hc : c = pad <;> simp [scatterTokensRow, hc]
      | succ j =>
        simp only [scatterTokensRow, List.zipWith_cons_cons, List.getD_cons_succ]
        exact ih xs j (by simpa using h1) (by simpa using h2)

theorem scatterScoresRow_getD_eq (pad : ℕ) :
    ∀ (curTok : List ℕ) (curSc new : List ℚ) (j : ℕ),
      j < curTok.length → j < curSc.length → j < new.length →
      (scatterScoresRow pad curTok curSc new).getD j 0
        = if curTok.getD j pad ≠ pad then new.getD j 0 else curSc.getD j 0 := by
  intro curTok
  induction curTok with
  | nil => intro curSc new j h; simp at h
  | cons c cs ih =>
    intro curSc new j h1 h2 h3
    cases curSc with
    | nil => simp at h2
    | cons s ss =>
      cases new with
      | nil => simp at h3
      | cons x xs =>
        cases j with
        | zero => by_cases hc : c = pad <;> simp [scatterScoresRow, hc]
        | succ j =>
          simp only [scatterScoresRow, List.zip_cons_cons, List.zipWith_cons_cons,
            List.getD_cons_succ]
          exact ih ss xs j (by simpa using h1) (by simpa using h2) (by simpa using h3)

/-- Counterexample to claim C1 as stated: on the state with single row
bos, unk, eos (ids 0, 3, 2; pad = 1) a refinement step whose decoder arg-max
predicts token 5 everywhere overwrites position 0, which held the begin
marker: the mask output_tokens.ne(pad) is true at the begin- and end-marker
positions, so masked_scatter_ writes there too. -/
theorem masked_scatter_marker_counterexample :
    ((forward_decoder 1 ⟨[[0, 3, 2]], [[0, 0, 0]], 0, 0⟩
        [[5, 5, 5]] [[2, 2, 2]]).output_tokens.getD 0 []).getD 0 1 = 5
    ∧ (([[0, 3, 2]] : List (List ℕ)).getD 0 []).getD 0 1 = 0
    ∧ (5 : ℕ) ≠ 0 :=
  ⟨rfl, rfl, by decide⟩

/-- Claim C1 as amended: pad positions are bit-identical before and after any
number of refinement steps (the masked-scatter update writes the per-position
arg-max token and score only at positions whose current token is non-pad), and
every non-pad position — including positions currently holding the begin or
end marker, and previously committed real tokens — receives the per-position
arg-max token and score of that step. -/
theorem masked_scatter_frame (pad : ℕ) :
    (∀ (d : DecoderOut) (preds : List (List (List ℕ) × List (List ℚ))) (r j : ℕ),
        (d.output_tokens.getD r []).getD j pad = pad →
        ((forward_decoder_steps pad d preds).output_tokens.getD r []).getD j pad = pad)
    ∧ (∀ (d : DecoderOut) (pt : List (List ℕ)) (ps : List (List ℚ)) (r j : ℕ),
        r < d.output_tokens.length → r < pt.length →
        j < (d.output_tokens.getD r []).length → j < (pt.getD r []).length →
        (d.output_tokens.getD r []).getD j pad ≠ pad →
        ((forward_decoder pad d pt ps).output_tokens.getD r []).getD j pad
          = (pt.getD r []).getD j 0)
    ∧ (∀ (d : DecoderOut) (pt : List (List ℕ)) (ps : List (List ℚ)) (r j : ℕ),
        r < d.output_tokens.length → r < d.output_scores.length → r < ps.length →
        j < (d.output_tokens.getD r []).length →
        j < (d.output_scores.getD r []).length → j < (ps.getD r []).length →
        (d.output_tokens.getD r []).getD j pad ≠ pad →
        ((forward_decoder pad d pt ps).output_scores.getD r []).getD j 0
          = (ps.getD r []).getD j 0)
    ∧ (∀ (d : DecoderOut) (pt : List (List ℕ)) (ps : List (List ℚ)) (r j : ℕ),
        r < d.output_tokens.length → r < d.output_scores.length → r < ps.length →
        j < (d.output_tokens.getD r []).length →
        j < (d.output_scores.getD r []).length → j < (ps.getD r []).length →
        (d.output_tokens.getD r []).getD j pad = pad →
        ((forward_decoder pad d pt ps).output_scores.getD r []).getD j 0
          = (d.output_scores.getD r []).getD j 0) := by
  refine ⟨fun d preds => forward_decoder_steps_getD_pad pad preds d, ?_, ?_, ?_⟩
  · intro d pt ps r j hr1 hr2 hj1 hj2 h
    show ((List.zipWith (scatterTokensRow pad) d.output_tokens pt).getD r []).getD j pad
      = (pt.getD r []).getD j 0
    rw [zipWith_getD_of_lt _ [] [] [] _ _ r hr1 hr2,
      scatterTokensRow_getD_eq pad _ _ j hj1 hj2, if_pos h]
  · intro d pt ps r j hr1 hr2 hr3 hj1 hj2 hj3 h
    show ((List.zipWith (fun (p : List ℕ × List ℚ) new => scatterScoresRow pad p.1 p.2 new)
        (d.output_tokens.zip d.output_scores) ps).getD r []).getD j 0
      = (ps.getD r []).getD j 0
    rw [zipWith_getD_of_lt _ ([], []) [] [] _ _ r (by simpa using And.intro hr1 hr2) hr3,
      zip_getD_of_lt [] [] _ _ r hr1 hr2]
    rw [scatterScoresRow_getD_eq pad _ _ _ j hj1 hj2 hj3, if_pos h]
  · intro d pt ps r j hr1 hr2 hr3 hj1 hj2 hj3 h
    show ((List.zipWith (fun (p : List ℕ × List ℚ) new => scatterScoresRow pad p.1 p.2 new)
        (d.output_tokens.zip d.output_scores) ps).getD r []).getD j 0
      = (d.output_scores.getD r []).getD j 0
    rw [zipWith_getD_of_lt _ ([], []) [] [] _ _ r (by simpa using And.intro hr1 hr2) hr3,
      zip_getD_of_lt [] [] _ _ r hr1 hr2]
    rw [scatterScoresRow_getD_eq pad _ _ _ j hj1 hj2 hj3, if_neg (by simpa using h)]

/-- Witness for amended C1: pad = 1, one row bos, unk, eos, pad (ids 0, 3, 2, 1)
with scores 5 everywhere; one step predicting token 7 with score 2 everywhere
keeps the pad position 3 (token and score) and writes 7 and 2 at the non-pad
position 1. -/
theorem masked_scatter_frame_witness :
    (((forward_decoder_steps 1 ⟨[[0, 3, 2, 1]], [[5, 5, 5, 5]], 0, 0⟩
        [([[7, 7, 7, 7]], [[2, 2, 2, 2]])]).output_tokens.getD 0 []).getD 3 1 = 1)
    ∧ (((forward_decoder 1 ⟨[[0, 3, 2, 1]], [[5, 5, 5, 5]], 0, 0⟩
        [[7, 7, 7, 7]] [[2, 2, 2, 2]]).output_tokens.getD 0 []).getD 1 1
        = (([[7, 7, 7, 7]] : List (List ℕ)).getD 0 []).getD 1 0)
    ∧ (((forward_decoder 1 ⟨[[0, 3, 2, 1]], [[5, 5, 5, 5]], 0, 0⟩
        [[7, 7, 7, 7]] [[2, 2, 2, 2]]).output_scores.getD 0 []).getD 1 0
        = (([[2, 2, 2, 2]] : List (List ℚ)).getD 0 []).getD 1 0)
    ∧ (((forward_decoder 1 ⟨[[0, 3, 2, 1]], [[5, 5, 5, 5]], 0, 0⟩
        [[7, 7, 7, 7]] [[2, 2, 2, 2]]).output_scores.getD 0 []).getD 3 0
        = (([[5, 5, 5, 5]] : List (List ℚ)).getD 0 []).getD 3 0) :=
  ⟨(masked_scatter_frame 1).1 ⟨[[0, 3, 2, 1]], [[5, 5, 5, 5]], 0, 0⟩
      [([[7, 7, 7, 7]], [[2, 2, 2, 2]])] 0 3 (by decide),
    (masked_scatter_frame 1).2.1 ⟨[[0, 3, 2, 1]], [[5, 5, 5, 5]], 0, 0⟩
      [[7, 7, 7, 7]] [[2, 2, 2, 2]] 0 1 (by decide) (by decide) (by decide)
      (by decide) (by decide),
    (masked_scatter_frame 1).2.2.1 ⟨[[0, 3, 2, 1]], [[5, 5, 5, 5]], 0, 0⟩
      [[7, 7, 7, 7]] [[2, 2, 2, 2]] 0 1 (by decide) (by decide) (by decide)
      (by decide) (by decide) (by decide) (by decide),
    (masked_scatter_frame 1).2.2.2 ⟨[[0, 3, 2, 1]], [[5, 5, 5, 5]], 0, 0⟩
      [[7, 7, 7, 7]] [[2, 2, 2, 2]] 0 3 (by decide) (by decide) (by decide)
      (by decide) (by decide) (by decide) (by decide)⟩

/-- Claim C6: under copy-attention seeding, every position's final seeded
content equals exactly one of the plain token-embedding lookup or the
copy-attention result — never an interpolation — and the selection is decided
per position by whether that position's buffer token equals the unk marker
(unk selects the copied content, non-unk keeps the plain lookup), via the
interleave-then-select-every-other operation over the concatenation. -/
theorem copy_seed_exclusive {α : Type _} [Inhabited α] (unk : ℕ) (tokens : List ℕ)
    (plain copied : List α) (hp : plain.length = tokens.length)
    (hc : copied.length = tokens.length) (i : ℕ) (hi : i < tokens.length) :
    (copySeedSelect unk tokens plain copied).getD i default
      = if tokens.getD i 0 = unk then copied.getD i default
        else plain.getD i default := by
  unfold copySeedSelect
  rw [getD_map_range _ _ hi]
  by_cases h : tokens.getD i 0 = unk
  · rw [if_pos h, if_pos h]
    exact catInterleave_getD_odd default plain copied i (by omega) (by omega)
  · rw [if_neg h, if_neg h, Nat.add_zero]
    exact catInterleave_getD_even default plain copied i (by omega) (by omega)

/-- Witness for C6 with unk = 3, tokens unk and non-unk, numeric content:
position 0 (token unk) takes the copied content 30, and the claim equality is
established by the theorem at position 0. -/
theorem copy_seed_exclusive_witness :
    ([10, 20] : List ℕ).length = ([3, 9] : List ℕ).length
    ∧ ([30, 40] : List ℕ).length = ([3, 9] : List ℕ).length
    ∧ 0 < ([3, 9] : List ℕ).length
    ∧ (copySeedSelect 3 [3, 9] [10, 20] [30, 40]).getD 0 default
        = if ([3, 9] : List ℕ).getD 0 0 = 3 then ([30, 40] : List ℕ).getD 0 default
          else ([10, 20] : List ℕ).getD 0 default :=
  ⟨by decide, by decide, by decide,
    copy_seed_exclusive 3 [3, 9] [10, 20] [30, 40] (by decide) (by decide) 0 (by decide)⟩

/-! ### Buffer-construction lemmas -/

theorem initRow_length (v : Vocab) (lt W : ℕ) : (initRow v lt W).length = W := by
  simp [initRow]

theorem initRow_getD (v : Vocab) (lt W : ℕ) {j : ℕ} (hj : j < W) :
    (initRow v lt W).getD j v.pad
      = if j = lt - 1 then v.eos else if j = 0 then v.bos
        else if j < lt then v.unk else v.pad :=
  getD_map_range _ _ hj

theorem initRow_getD_bos (v : Vocab) {lt W : ℕ} (h2 : 2 ≤ lt) (hW : lt ≤ W) :
    (initRow v lt W).getD 0 v.pad = v.bos := by
  rw [initRow_getD v lt W (by omega), if_neg (by omega), if_pos rfl]

theorem initRow_getD_eos (v : Vocab) {lt W : ℕ} (h2 : 2 ≤ lt) (hW : lt ≤ W) :
    (initRow v lt W).getD (lt - 1) v.pad = v.eos := by
  rw [initRow_getD v lt W (by omega), if_pos rfl]

theorem initRow_getD_unk (v : Vocab) {lt W j : ℕ} (hW : lt ≤ W)
    (h0 : 0 < j) (hj : j < lt - 1) :
    (initRow v lt W).getD j v.pad = v.unk := by
  rw [initRow_getD v lt W (by omega), if_neg (by omega), if_neg (by omega),
    if_pos (by omega)]

theorem initRow_getD_pad (v : Vocab) {lt W j : ℕ} (h2 : 2 ≤ lt) (hj : lt ≤ j) :
    (initRow v lt W).getD j v.pad = v.pad := by
  rcases Nat.lt_or_ge j W with hlt | hge
  · rw [initRow_getD v lt W hlt, if_neg (by omega), if_neg (by omega),
      if_neg (by omega)]
  · exact List.getD_eq_default _ _ (by simpa [initRow_length] using hge)

theorem initialize_row_eq (v : Vocab) (length_tgt : List ℤ) (r : ℕ)
    (hr : r < length_tgt.length) :
    (initialize_output_tokens v length_tgt).output_tokens.getD r []
      = initRow v ((max (length_tgt.getD r 0) 2).toNat)
          (listMax (length_tgt.map (fun x => (max x 2).toNat))) := by
  show ((length_tgt.map (fun x => (max x 2).toNat)).map
      (fun lt => initRow v lt (listMax (length_tgt.map (fun x => (max x 2).toNat))))).getD
        r [] = _
  rw [List.getD_eq_getElem _ _ (by simpa using hr), List.getElem_map, List.getElem_map,
    List.getD_eq_getElem _ _ hr]

theorem clamped_le_listMax (length_tgt : List ℤ) (r : ℕ) (hr : r < length_tgt.length) :
    (max (length_tgt.getD r 0) 2).toNat
      ≤ listMax (length_tgt.map (fun x => (max x 2).toNat)) := by
  apply le_listMax_of_mem
  rw [List.getD_eq_getElem _ _ hr]
  exact List.mem_map.mpr ⟨length_tgt[r], List.getElem_mem hr, rfl⟩

/-- Claim C3: initialize_output_tokens first clamps each row's length target to
at least 2 and then builds, for every batch row independently, a buffer of
width equal to the batch maximum of the clamped lengths, with the begin marker
at position 0, the end marker at position lt-1, unk-fill strictly between them
and pad-fill at and after position lt; the returned state has step 0 and zero
scores. -/
theorem initialize_output_tokens_spec (v : Vocab) (length_tgt : List ℤ) (r : ℕ)
    (hr : r < length_tgt.length) :
    let lt := (max (length_tgt.getD r 0) 2).toNat
    let st := initialize_output_tokens v length_tgt
    let row := st.output_tokens.getD r []
    2 ≤ lt
    ∧ row.length = listMax (length_tgt.map (fun x => (max x 2).toNat))
    ∧ row.getD 0 v.pad = v.bos
    ∧ row.getD (lt - 1) v.pad = v.eos
    ∧ (∀ j, 0 < j → j < lt - 1 → row.getD j v.pad = v.unk)
    ∧ (∀ j, lt ≤ j → row.getD j v.pad = v.pad)
    ∧ st.step = 0
    ∧ (∀ j, (st.output_scores.getD r []).getD j 0 = 0) := by
  intro lt st row
  have h2 : 2 ≤ lt := by
    show 2 ≤ (max (length_tgt.getD r 0) 2).toNat
    omega
  have hrow : row = initRow v lt (listMax (length_tgt.map (fun x => (max x 2).toNat))) :=
    initialize_row_eq v length_tgt r hr
  have hW : lt ≤ listMax (length_tgt.map (fun x => (max x 2).toNat)) :=
    clamped_le_listMax length_tgt r hr
  refine ⟨h2, ?_, ?_, ?_, ?_, ?_, rfl, ?_⟩
  · rw [hrow, initRow_length]
  · rw [hrow]; exact initRow_getD_bos v h2 hW
  · rw [hrow]; exact initRow_getD_eos v h2 hW
  · intro j h0 hj; rw [hrow]; exact initRow_getD_unk v hW h0 hj
  · intro j hj; rw [hrow]; exact initRow_getD_pad v h2 hj
  · intro j
    have hsc : st.output_scores.getD r []
        = List.replicate (listMax (length_tgt.map (fun x => (max x 2).toNat))) (0 : ℚ) := by
      show ((length_tgt.map (fun x => (max x 2).toNat)).map
          (fun _ => List.replicate
            (listMax (length_tgt.map (fun x => (max x 2).toNat))) (0 : ℚ))).getD r [] = _
      rw [List.getD_eq_getElem _ _ (by simpa using hr), List.getElem_map]
    rw [hsc]
    exact getD_replicate_self 0 _ j

/-- Witness for C3 at length targets 4 and 3, row 0. -/
theorem initialize_output_tokens_spec_witness :
    0 < ([4, 3] : List ℤ).length ∧
    (let lt := (max (([4, 3] : List ℤ).getD 0 0) 2).toNat
     let st := initialize_output_tokens fairseqVocab [4, 3]
     let row := st.output_tokens.getD 0 []
     2 ≤ lt
     ∧ row.length = listMax (([4, 3] : List ℤ).map (fun x => (max x 2).toNat))
     ∧ row.getD 0 fairseqVocab.pad = fairseqVocab.bos
     ∧ row.getD (lt - 1) fairseqVocab.pad = fairseqVocab.eos
     ∧ (∀ j, 0 < j → j < lt - 1 → row.getD j fairseqVocab.pad = fairseqVocab.unk)
     ∧ (∀ j, lt ≤ j → row.getD j fairseqVocab.pad = fairseqVocab.pad)
     ∧ st.step = 0
     ∧ (∀ j, (st.output_scores.getD 0 []).getD j 0 = 0)) :=
  ⟨by decide, initialize_output_tokens_spec fairseqVocab [4, 3] 0 (by decide)⟩

/-! ### Length-beam lemmas -/

theorem candLen_ge_two (B c i : ℕ) : 2 ≤ candLen B c i := by
  unfold candLen; omega

theorem candLen_mono (B c : ℕ) {i1 i2 : ℕ} (h : i1 ≤ i2) :
    candLen B c i1 ≤ candLen B c i2 := by
  unfold candLen
  have : (i1 : ℤ) ≤ i2 := by exact_mod_cast h
  omega

theorem nonPadCount_initRow (v : Vocab) (hb : v.bos ≠ v.pad) (he : v.eos ≠ v.pad)
    (hu : v.unk ≠ v.pad) {lt W : ℕ} (h2 : 2 ≤ lt) (hW : lt ≤ W) :
    nonPadCount v.pad (initRow v lt W) = lt := by
  unfold nonPadCount initRow
  rw [List.filter_map, List.length_map]
  have hcong : ∀ j ∈ List.range W,
      ((fun t => decide (t ≠ v.pad)) ∘ (fun j =>
        if j = lt - 1 then v.eos else if j = 0 then v.bos
        else if j < lt then v.unk else v.pad)) j = decide (j < lt) := by
    intro j _
    simp only [Function.comp]
    split_ifs with hA hB hC
    · rw [decide_eq_decide]; exact iff_of_true he (by omega)
    · rw [decide_eq_decide]; exact iff_of_true hb (by omega)
    · rw [decide_eq_decide]; exact iff_of_true hu hC
    · rw [decide_eq_decide]; exact iff_of_false (fun h => h rfl) hC
  rw [List.filter_congr hcong]
  exact filter_range_lt_length W lt hW

theorem beam_blocks_length (pad : ℕ) (tokens : List (List ℕ)) (B : ℕ) :
    ∀ bl ∈ (tokens.map (nonPadCount pad)).map
      (fun c => (List.range B).map (fun i => candLen B c i)), bl.length = B := by
  intro bl hbl
  rcases List.mem_map.mp hbl with ⟨c, _, hc⟩
  simp [← hc]

theorem beamLengthTgt_length (pad : ℕ) (tokens : List (List ℕ)) (B : ℕ) :
    (beamLengthTgt pad tokens B).length = tokens.length * B := by
  unfold beamLengthTgt
  rw [flatten_length_const B _ (beam_blocks_length pad tokens B)]
  simp

theorem idx_lt_mul {r n i B : ℕ} (hr : r < n) (hi : i < B) : r * B + i < n * B := by
  have h1 : r * B + i < (r + 1) * B := by
    rw [Nat.succ_mul]; omega
  exact lt_of_lt_of_le h1 (Nat.mul_le_mul_right B hr)

theorem beamLengthTgt_getD (pad : ℕ) (tokens : List (List ℕ)) (B r i : ℕ)
    (hr : r < tokens.length) (hi : i < B) :
    (beamLengthTgt pad tokens B).getD (r * B + i) 0
      = candLen B (nonPadCount pad (tokens.getD r [])) i := by
  unfold beamLengthTgt
  rw [flatten_getD_const_len B 0 _ r i (beam_blocks_length pad tokens B)
    (by simpa using hr) hi]
  have hblock : ((tokens.map (nonPadCount pad)).map
      (fun c => (List.range B).map (fun i => candLen B c i))).getD r []
      = (List.range B).map
          (fun i => candLen B (nonPadCount pad (tokens.getD r [])) i) := by
    rw [List.getD_eq_getElem _ _ (by simpa using hr), List.getElem_map, List.getElem_map,
      List.getD_eq_getElem _ _ hr]
  rw [hblock, getD_map_range _ _ hi]

theorem regen_row_eq (v : Vocab) (d : DecoderOut) (B r i : ℕ)
    (hr : r < d.output_tokens.length) (hi : i < B) :
    (regenerate_length_beam v d B).output_tokens.getD (r * B + i) []
      = initRow v (candLen B (nonPadCount v.pad (d.output_tokens.getD r [])) i)
          (listMax (beamLengthTgt v.pad d.output_tokens B)) := by
  have hn : r * B + i < (beamLengthTgt v.pad d.output_tokens B).length := by
    rw [beamLengthTgt_length]; exact idx_lt_mul hr hi
  show ((beamLengthTgt v.pad d.output_tokens B).map
      (fun lt => initRow v lt (listMax (beamLengthTgt v.pad d.output_tokens B)))).getD
        (r * B + i) [] = _
  rw [List.getD_eq_getElem _ _ (by simpa using hn), List.getElem_map,
    ← List.getD_eq_getElem _ 0 hn, beamLengthTgt_getD v.pad _ B r i hr hi]

theorem candLen_le_beamWidth (v : Vocab) (d : DecoderOut) (B r i : ℕ)
    (hr : r < d.output_tokens.length) (hi : i < B) :
    candLen B (nonPadCount v.pad (d.output_tokens.getD r [])) i
      ≤ listMax (beamLengthTgt v.pad d.output_tokens B) := by
  have hn : r * B + i < (beamLengthTgt v.pad d.output_tokens B).length := by
    rw [beamLengthTgt_length]; exact idx_lt_mul hr hi
  rw [← beamLengthTgt_getD v.pad _ B r i hr hi, List.getD_eq_getElem _ _ hn]
  exact le_listMax_of_mem (List.getElem_mem hn)

/-- Claim C4: for every beam size B, regenerate_length_beam returns a state
whose batch size is the original batch size times B, and per original row r
(with non-pad token count c) the B measured candidate lengths — the non-pad
counts of its beam rows — are exactly max(2, c - B/2 + i) for i from 0 to B-1
(possibly with duplicates after the clamp to at least 2), each beam row being a
fresh pad/unk/begin/end-filled buffer of its candidate length. -/
theorem regenerate_length_beam_spec (v : Vocab) (hb : v.bos ≠ v.pad)
    (he : v.eos ≠ v.pad) (hu : v.unk ≠ v.pad) (d : DecoderOut) (B : ℕ) :
    (regenerate_length_beam v d B).output_tokens.length = d.output_tokens.length * B
    ∧ ∀ r, r < d.output_tokens.length →
        (List.range B).map (fun i => nonPadCount v.pad
          ((regenerate_length_beam v d B).output_tokens.getD (r * B + i) []))
        = (List.range B).map (fun i =>
            candLen B (nonPadCount v.pad (d.output_tokens.getD r [])) i) := by
  constructor
  · show ((beamLengthTgt v.pad d.output_tokens B).map
      (fun lt => initRow v lt (listMax (beamLengthTgt v.pad d.output_tokens B)))).length = _
    rw [List.length_map, beamLengthTgt_length]
  · intro r hr
    apply List.map_congr_left
    intro i hi
    have hiB : i < B := List.mem_range.mp hi
    rw [regen_row_eq v d B r i hr hiB]
    exact nonPadCount_initRow v hb he hu (candLen_ge_two B _ i)
      (candLen_le_beamWidth v d B r i hr hiB)

/-- Witness for C4 with the fairseq dictionary ids, one row of non-pad count 5
and beam size 3. -/
theorem regenerate_length_beam_spec_witness :
    fairseqVocab.bos ≠ fairseqVocab.pad ∧ fairseqVocab.eos ≠ fairseqVocab.pad
    ∧ fairseqVocab.unk ≠ fairseqVocab.pad
    ∧ ((regenerate_length_beam fairseqVocab
          ⟨[[0, 4, 4, 4, 2]], [[0, 0, 0, 0, 0]], 0, 0⟩ 3).output_tokens.length
        = ([[0, 4, 4, 4, 2]] : List (List ℕ)).length * 3
      ∧ ∀ r, r < ([[0, 4, 4, 4, 2]] : List (List ℕ)).length →
          (List.range 3).map (fun i => nonPadCount fairseqVocab.pad
            ((regenerate_length_beam fairseqVocab
              ⟨[[0, 4, 4, 4, 2]], [[0, 0, 0, 0, 0]], 0, 0⟩ 3).output_tokens.getD
                (r * 3 + i) []))
          = (List.range 3).map (fun i => candLen 3 (nonPadCount fairseqVocab.pad
              ((⟨[[0, 4, 4, 4, 2]], [[0, 0, 0, 0, 0]], 0, 0⟩ :
                DecoderOut).output_tokens.getD r [])) i)) :=
  ⟨by decide, by decide, by decide,
    regenerate_length_beam_spec fairseqVocab (by decide) (by decide) (by decide)
      ⟨[[0, 4, 4, 4, 2]], [[0, 0, 0, 0, 0]], 0, 0⟩ 3⟩

/-- Counterexample to claim C10 as stated: with pad = 1, one row of non-pad
count 5 and odd beam size B = 3, the candidate lengths are 4, 5, 6: the window
around the center 5 extends exactly one position below and one above — it is
symmetric, and does not extend one position further above the center than
below as the claim's parenthetical asserts (that would require the top margin
to equal the bottom margin plus one). -/
theorem beam_window_odd_counterexample :
    beamLengthTgt 1 [[0, 4, 4, 4, 2]] 3 = [4, 5, 6]
    ∧ nonPadCount 1 [0, 4, 4, 4, 2] = 5
    ∧ ¬ (listMax (beamLengthTgt 1 [[0, 4, 4, 4, 2]] 3)
          - nonPadCount 1 [0, 4, 4, 4, 2]
        = (nonPadCount 1 [0, 4, 4, 4, 2]
            - (beamLengthTgt 1 [[0, 4, 4, 4, 2]] 3).getD 0 0) + 1) := by
  decide

/-- Claim C10 as amended: regenerate_length_beam lays out beam hypotheses
contiguously and in non-decreasing length order per original row: for original
row r with non-pad count c and beam size B, output row r*B + i is the fresh
buffer for candidate length max(2, c - B/2 + i) with the half-width computed by
integer floor division; whenever the clamp is inactive the window around c is
symmetric for odd B (B/2 on each side) and extends one position further below
the center than above for even B. -/
theorem regenerate_length_beam_layout (v : Vocab) (d : DecoderOut) (B r i : ℕ)
    (hr : r < d.output_tokens.length) (hi : i < B) :
    (regenerate_length_beam v d B).output_tokens.getD (r * B + i) []
      = initRow v (candLen B (nonPadCount v.pad (d.output_tokens.getD r [])) i)
          (listMax (beamLengthTgt v.pad d.output_tokens B))
    ∧ (∀ c i1 i2, i1 ≤ i2 → candLen B c i1 ≤ candLen B c i2)
    ∧ (B % 2 = 1 → ∀ c, 2 + B / 2 ≤ c →
        candLen B c (B - 1) - c = c - candLen B c 0)
    ∧ (B % 2 = 0 → 2 ≤ B → ∀ c, 2 + B / 2 ≤ c →
        c - candLen B c 0 = (candLen B c (B - 1) - c) + 1) := by
  refine ⟨regen_row_eq v d B r i hr hi,
    fun c i1 i2 h => candLen_mono B c h, ?_, ?_⟩
  · intro hodd c hc
    unfold candLen
    omega
  · intro heven hB c hc
    unfold candLen
    omega

/-- Witness for amended C10 at one row of non-pad count 5, B = 3, r = 0, i = 1. -/
theorem regenerate_length_beam_layout_witness :
    0 < ([[0, 4, 4, 4, 2]] : List (List ℕ)).length ∧ 1 < 3
    ∧ ((regenerate_length_beam fairseqVocab
          ⟨[[0, 4, 4, 4, 2]], [[0, 0, 0, 0, 0]], 0, 0⟩ 3).output_tokens.getD
            (0 * 3 + 1) []
        = initRow fairseqVocab (candLen 3 (nonPadCount fairseqVocab.pad
            ((⟨[[0, 4, 4, 4, 2]], [[0, 0, 0, 0, 0]], 0, 0⟩ :
              DecoderOut).output_tokens.getD 0 [])) 1)
            (listMax (beamLengthTgt fairseqVocab.pad [[0, 4, 4, 4, 2]] 3))
      ∧ (∀ c i1 i2, i1 ≤ i2 → candLen 3 c i1 ≤ candLen 3 c i2)
      ∧ (3 % 2 = 1 → ∀ c, 2 + 3 / 2 ≤ c →
          candLen 3 c (3 - 1) - c = c - candLen 3 c 0)
      ∧ (3 % 2 = 0 → 2 ≤ 3 → ∀ c, 2 + 3 / 2 ≤ c →
          c - candLen 3 c 0 = (candLen 3 c (3 - 1) - c) + 1)) :=
  ⟨by decide, by decide,
    regenerate_length_beam_layout fairseqVocab
      ⟨[[0, 4, 4, 4, 2]], [[0, 0, 0, 0, 0]], 0, 0⟩ 3 0 1 (by decide) (by decide)⟩

end NATDePA
